import Mathlib

/-!
Formal model of the ftree repository.

The repository contains two parallel implementations of the same tree model:
a self-contained one in src/main.rs and a module pair src/tree/mod.rs plus
src/fs_utils.rs.  Rust reference-counted nodes (`Rc<RefCell<TreeItem>>`) with
weak parent pointers are embedded as a pure inductive tree; the upward parent
walk used by the prefix computation (`fill_symbols` in tree/mod.rs,
`to_row_str_rec` in main.rs) is embedded as an explicit ancestor chain
(`Chain`), with a dedicated constructor for a weak link whose `upgrade()`
fails (an expired parent).
-/

/-- Glyph constant `LVL_SUFFIX` from main.rs and tree/mod.rs. -/
def LVL_SUFFIX : String := "├──"

/-- Glyph constant `LVL_SUFFIX_LAST` from main.rs and tree/mod.rs. -/
def LVL_SUFFIX_LAST : String := "└──"

/-- Glyph constant `PARENT_IS_NOT_LAST` (a vertical bar plus two spaces). -/
def PARENT_IS_NOT_LAST : String := "│  "

/-- Glyph constant `PARENT_IS_LAST` (three spaces). -/
def PARENT_IS_LAST : String := "   "

/-- Upward view of a node during the parent walk: the node's `is_last` flag
together with its `parent` field.  `root` is a node whose parent field is
`None`; `broken` is a node whose parent field is `Some(weak)` where the weak
reference no longer upgrades (the parent has been dropped); `cons` is a node
whose parent is alive. -/
inductive Chain where
  | root (is_last : Bool)
  | broken (is_last : Bool)
  | cons (is_last : Bool) (parent : Chain)

/-- The node's `is_last` field. -/
def Chain.isLast : Chain → Bool
  | .root b => b
  | .broken b => b
  | .cons b _ => b

/-- Rust `node.parent.is_some()`: true when the parent field holds a weak
reference, whether or not it still upgrades. -/
def Chain.hasParentLink : Chain → Bool
  | .root _ => false
  | .broken _ => true
  | .cons _ _ => true

/-- A chain none of whose links is expired (the situation during a normal
render, while the whole tree is still owned by the caller). -/
def Chain.live : Chain → Bool
  | .root _ => true
  | .broken _ => false
  | .cons _ p => p.live

/-- Embedding of `fill_symbols` from src/tree/mod.rs: push the glyph for the
current item ( `└──` / `├──` when reached as the rendered node, `   ` / `│  `
when reached as an ancestor, each preceded by one space), then, if the parent
link is present and upgrades and that parent itself has a parent link, recurse
into the parent with `sent_from_child = true`.  The returned list is in push
order: self first, ancestors after. -/
def fill_symbols (c : Chain) (sent_from_child : Bool) : List String :=
  let symbol :=
    if sent_from_child then
      (if c.isLast then " " ++ PARENT_IS_LAST else " " ++ PARENT_IS_NOT_LAST)
    else
      (if c.isLast then " " ++ LVL_SUFFIX_LAST else " " ++ LVL_SUFFIX)
  match c with
  | .cons _ p => symbol :: (if p.hasParentLink then fill_symbols p true else [])
  | _ => [symbol]

/-- Embedding of `to_row_str_rec` from src/main.rs; its body is character for
character the same as `fill_symbols` in src/tree/mod.rs. -/
def to_row_str_rec (c : Chain) (sent_from_child : Bool) : List String :=
  let symbol :=
    if sent_from_child then
      (if c.isLast then " " ++ PARENT_IS_LAST else " " ++ PARENT_IS_NOT_LAST)
    else
      (if c.isLast then " " ++ LVL_SUFFIX_LAST else " " ++ LVL_SUFFIX)
  match c with
  | .cons _ p => symbol :: (if p.hasParentLink then to_row_str_rec p true else [])
  | _ => [symbol]

/-- The `parent` field of a node as passed to the render: absent (`None`),
expired (`Some` of a dead weak reference), or a live parent with upward view
`c`. -/
inductive PLink where
  | nil
  | expired
  | live (c : Chain)

/-- Upward view of a node with `is_last` flag `b` and parent field `link`. -/
def Chain.ofLink (b : Bool) : PLink → Chain
  | .nil => .root b
  | .expired => .broken b
  | .live c => .cons b c

/-- The `TreeItem` struct shared (field for field) by src/main.rs and
src/tree/mod.rs: display text, directory flag, last-sibling flag and the
ordered child list.  The Rust `parent` weak reference cannot be stored in a
pure tree; it is supplied to the render functions as a `PLink` argument
instead. -/
inductive TreeItem where
  | mk (text : String) (is_dir : Bool) (is_last : Bool) (children : List TreeItem)

/-- Field `text`. -/
def TreeItem.text : TreeItem → String
  | .mk t _ _ _ => t

/-- Field `is_dir`. -/
def TreeItem.is_dir : TreeItem → Bool
  | .mk _ d _ _ => d

/-- Field `is_last`. -/
def TreeItem.is_last : TreeItem → Bool
  | .mk _ _ l _ => l

/-- Field `children`. -/
def TreeItem.children : TreeItem → List TreeItem
  | .mk _ _ _ cs => cs

/-- Rust `text.replace("\\", "/")` for the single-character pattern used by
the `Display` impl in src/tree/mod.rs: every backslash (code point 92) is
rewritten to a forward slash (code point 47). -/
def replaceBackslash (s : String) : String :=
  String.mk (s.data.map (fun c => if c.toNat == 92 then Char.ofNat 47 else c))

/-- Rust `name.ends_with("/")` for the single-character pattern used by the
`Display` impl in src/tree/mod.rs: the last character is a forward slash
(code point 47). -/
def endsWithSlash (s : String) : Bool :=
  match s.data.getLast? with
  | some c => c.toNat == 47
  | none => false

/-- Embedding of `impl Display for TreeItem` from src/tree/mod.rs: backslashes
in the text are rewritten to forward slashes and a trailing "/" is appended
exactly when the item is a directory and the rewritten name does not already
end with "/". -/
def displayFmt (t : TreeItem) : String :=
  let nm := replaceBackslash t.text
  let trail := if t.is_dir && !(endsWithSlash nm) then "/" else ""
  nm ++ trail

mutual

/-- Embedding of `TreeItem::to_row_str` from src/tree/mod.rs.  The row for the
item itself is the (optionally empty) prefix built from the reversed and
concatenated `fill_symbols` glyphs followed by one space, then the `Display`
text; each child is rendered recursively with `prefix_self = true` (its parent
link being a live reference to this item) and the blocks are joined with
newlines. -/
def to_row_str (t : TreeItem) (link : PLink) (pfx_self : Bool) : String :=
  match t with
  | .mk text is_dir is_last children =>
    let selfChain := Chain.ofLink is_last link
    let pfx :=
      if pfx_self then String.join ((fill_symbols selfChain false).reverse) ++ " " else ""
    let rows := (pfx ++ displayFmt (.mk text is_dir is_last children)) ::
      to_row_str_children children (PLink.live selfChain)
    String.intercalate "\n" rows

/-- The `for child in &self.children` loop of `to_row_str` in src/tree/mod.rs. -/
def to_row_str_children (cs : List TreeItem) (link : PLink) : List String :=
  match cs with
  | [] => []
  | c :: rest => to_row_str c link true :: to_row_str_children rest link

end

mutual

/-- Embedding of `TreeItem::to_row_str` from src/main.rs.  Identical control
flow to the tree-module version, except that the row text is
`self.text` followed by an unconditional "/" for directories (main.rs does not
route the name through its `Display` impl and performs no normalization), and
the glyph walk is main.rs's `to_row_str_rec`. -/
def to_row_str_main (t : TreeItem) (link : PLink) (pfx_self : Bool) : String :=
  match t with
  | .mk text is_dir is_last children =>
    let selfChain := Chain.ofLink is_last link
    let pfx :=
      if pfx_self then String.join ((to_row_str_rec selfChain false).reverse) ++ " " else ""
    let rows := (pfx ++ text ++ (if is_dir then "/" else "")) ::
      to_row_str_main_children children (PLink.live selfChain)
    String.intercalate "\n" rows

/-- The `for child in &self.children` loop of `to_row_str` in src/main.rs. -/
def to_row_str_main_children (cs : List TreeItem) (link : PLink) : List String :=
  match cs with
  | [] => []
  | c :: rest => to_row_str_main c link true :: to_row_str_main_children rest link

end

/-- Outcome of the gitignore handling at one directory, abstracting the
external `gitignore` crate: `absent` when no `.gitignore` file exists directly
inside the directory, `malformed` when the file exists but
`gitignore::File::new` returns an error (the source immediately `unwrap`s it),
and `matcher f` when a matcher was built, where `f p` is the result of
`matcher.is_excluded(p)` (`none` models an `Err`, which the source `unwrap`s).
The builder consults this oracle only at the directory it is currently
listing. -/
inductive IgnState where
  | absent
  | malformed
  | matcher (f : String → Option Bool)

/-- One level of the filesystem as seen by the builder: either `read_dir` (or
collecting its entries) fails with an error, or it yields the entries in
enumeration order.  Each entry is its decoded name (`none` when
`OsStr::to_str` fails), its metadata directory flag (`none` when `metadata()`
fails) and the listing found below it when it is recursed into. -/
inductive FSDir where
  | err (msg : String)
  | ok (entries : List (Option String × Option Bool × FSDir))

/-- Rust `format!("{}/{}", path, name)`, also standing in for
`Path::new(path).join(name)` on a platform whose separator is "/". -/
def joinPath (p nm : String) : String := p ++ "/" ++ nm

mutual

/-- Embedding of `traverse_fs` from src/fs_utils.rs.  The gitignore matcher is
built first (only when `git` is set, from the `.gitignore` directly inside
`path`; a malformed file is fatal), then the directory is listed (a listing
failure is fatal) and the entries are processed in order.  The result is the
list of children attached to the target node, or the panic message.

The source attaches each child with `TreeItem::new(item, file_name_str.to_string(), is_dir)`,
omitting the `is_last` argument that `TreeItem::new` in src/tree/mod.rs
requires, so fs_utils.rs does not type-check against tree/mod.rs and no
last-sibling computation exists anywhere in `traverse_fs`.  The parameter
`dflt` stands for the value of that missing argument, so every possible
constant completion of the source is covered. -/
def traverse_fs (ign : String → IgnState) (git dflt : Bool) (path : String)
    (d : FSDir) : Except String (List TreeItem) :=
  match (if git then ign path else IgnState.absent) with
  | .malformed => .error ("invalid gitignore file " ++ joinPath path ".gitignore")
  | .absent =>
    match d with
    | .err e => .error ("Error reading files in " ++ path ++ ": " ++ e)
    | .ok entries => traverseEntries ign git dflt path none entries
  | .matcher f =>
    match d with
    | .err e => .error ("Error reading files in " ++ path ++ ": " ++ e)
    | .ok entries => traverseEntries ign git dflt path (some f) entries

/-- The entry loop of `traverse_fs`: for each entry, read its metadata (a
failure is fatal) and its name (a failure is fatal); when `git` is set, skip
an entry named ".git" unconditionally, then, if a matcher exists, skip the
entry when `is_excluded` on the joined path says so (an `is_excluded` error is
fatal).  A kept entry becomes a child node; a kept directory is recursed into
at the joined path with the same flags before the loop continues. -/
def traverseEntries (ign : String → IgnState) (git dflt : Bool) (path : String)
    (m : Option (String → Option Bool)) (entries : List (Option String × Option Bool × FSDir)) :
    Except String (List TreeItem) :=
  match entries with
  | [] => .ok []
  | (nameO, metaO, sub) :: rest =>
    match metaO with
    | none => .error "Unable to read metadata"
    | some is_dir =>
      match nameO with
      | none => .error "Unable to read the file name"
      | some nm =>
        if git && nm == ".git" then
          traverseEntries ign git dflt path m rest
        else
          match (match m with
                 | some f => f (joinPath path nm)
                 | none => some false) with
          | none => .error "is_excluded failed"
          | some true => traverseEntries ign git dflt path m rest
          | some false =>
            match (if is_dir then traverse_fs ign git dflt (joinPath path nm) sub
                   else Except.ok []) with
            | .error e => .error e
            | .ok kids =>
              match traverseEntries ign git dflt path m rest with
              | .error e => .error e
              | .ok others => .ok (TreeItem.mk nm is_dir dflt kids :: others)

end

/-- The whole run for the ignore-aware builder paired with the tree-module
renderer: build the root node (`new_top_level` sets `is_last = true`, no
parent), populate it, and print `to_row_str(false)` only when the build
returned instead of panicking (`none` models the aborted process, which
renders nothing). -/
def ftree_run (ign : String → IgnState) (git dflt : Bool) (path : String)
    (d : FSDir) : Option String :=
  match traverse_fs ign git dflt path d with
  | .error _ => none
  | .ok kids => some (to_row_str (TreeItem.mk path true true kids) .nil false)

/-- Branch glyph as the specification words it: "└──" for a last sibling,
"├──" otherwise, preceded by one space. -/
def branchGlyph (b : Bool) : String :=
  if b then " " ++ "└──" else " " ++ "├──"

/-- Continuation glyph as the specification words it: three spaces for a last
ancestor, a vertical bar plus two spaces otherwise, preceded by one space. -/
def contGlyph (b : Bool) : String :=
  if b then " " ++ "   " else " " ++ "│  "

/-- Last-sibling flags of the proper ancestors of the head node that are not
the root, innermost first, as the specification's prefix description uses
them.  The walk stops at the root (a node with no parent link), which
contributes nothing. -/
def ancestorFlags : Chain → List Bool
  | .root _ => []
  | .broken _ => []
  | .cons _ p =>
    match p with
    | .root _ => []
    | .broken pb => [pb]
    | .cons pb pp => pb :: ancestorFlags (.cons pb pp)

/-- Displayed name as the claim words it: the text with every backslash
rewritten to a forward slash, a trailing "/" appended exactly when the node is
a directory and the rewritten name does not already end with "/". -/
def specDisplayName (text : String) (is_dir : Bool) : String :=
  replaceBackslash text ++
    (if is_dir && !(endsWithSlash (replaceBackslash text)) then "/" else "")

/-- The last-sibling invariant as the claim words it for a non-empty child
list: every child but the final one has `is_last = false` and the final one
has `is_last = true` (so exactly one child carries the flag, namely the last
one). -/
def lastFlagsOk : List TreeItem → Bool
  | [] => true
  | [t] => t.is_last
  | t :: rest => !t.is_last && lastFlagsOk rest

mutual

/-- No node of this subtree is named ".git". -/
def noGitItem : TreeItem → Bool
  | .mk text _ _ children => (text != ".git") && noGitList children

/-- No node of any of these subtrees is named ".git". -/
def noGitList : List TreeItem → Bool
  | [] => true
  | t :: rest => noGitItem t && noGitList rest

end

mutual

/-- Every node text in this subtree is free of backslashes and does not end
with "/". -/
def cleanItem : TreeItem → Bool
  | .mk text _ _ children =>
    text.data.all (fun c => c.toNat != 92) && !(endsWithSlash text) && cleanList children

/-- Every node text in these subtrees is free of backslashes and does not end
with "/". -/
def cleanList : List TreeItem → Bool
  | [] => true
  | t :: rest => cleanItem t && cleanList rest

end

/-- The path `p` is the directory `base` itself or lies below it (it extends
`base` through the separator used by the recursive calls). -/
def underPath (base p : String) : Prop :=
  p = base ∨ ∃ rest, p = joinPath base rest

theorem join_snoc (xs : List String) (b : String) :
    String.join (xs ++ [b]) = String.join xs ++ b := by
  induction xs with
  | nil => simp [String.join]
  | cons x xs ih => simp [String.join]

theorem fill_symbols_true_spec (p : Chain) (b : Bool) (h : p.live = true) :
    (if p.hasParentLink then fill_symbols p true else []) =
      (ancestorFlags (Chain.cons b p)).map contGlyph := by
  induction p generalizing b with
  | root pb => simp [Chain.hasParentLink, ancestorFlags]
  | broken pb => simp [Chain.live] at h
  | cons pb pp ih =>
    have hpp : pp.live = true := by simpa [Chain.live] using h
    simp only [Chain.hasParentLink, if_true]
    rw [fill_symbols]
    simp only [ancestorFlags, List.map, List.cons.injEq]
    refine ⟨?_, ih pb hpp⟩
    simp [Chain.isLast, contGlyph, PARENT_IS_LAST, PARENT_IS_NOT_LAST]

/-- C2: for every node rendered with a prefix whose ancestor chain is fully
live, the glyph list collected by the upward walk is exactly a branch glyph
for the node itself ("└──" when it is the last sibling, "├──" otherwise, each
preceded by one space) followed by one continuation glyph per non-root proper
ancestor (three spaces for a last ancestor, a vertical bar plus two spaces
otherwise, each preceded by one space), self first and ancestors after, the
root contributing nothing; and after the reversal performed before
concatenation the ancestors' (root-side) columns come first and the node's own
branch glyph comes last, so the root's column renders leftmost. -/
theorem c2_prefix_computation (c : Chain) (h : c.live = true) :
    fill_symbols c false = branchGlyph c.isLast :: (ancestorFlags c).map contGlyph ∧
    String.join ((fill_symbols c false).reverse) =
      String.join (((ancestorFlags c).map contGlyph).reverse) ++ branchGlyph c.isLast := by
  have h1 : fill_symbols c false = branchGlyph c.isLast :: (ancestorFlags c).map contGlyph := by
    match c with
    | .root b =>
      simp [fill_symbols, ancestorFlags, branchGlyph, Chain.isLast, LVL_SUFFIX, LVL_SUFFIX_LAST]
    | .broken b => simp [Chain.live] at h
    | .cons b p =>
      have hp : p.live = true := by simpa [Chain.live] using h
      rw [fill_symbols]
      simp only [List.cons.injEq]
      refine ⟨?_, fill_symbols_true_spec p b hp⟩
      simp [Chain.isLast, branchGlyph, LVL_SUFFIX, LVL_SUFFIX_LAST]
  refine ⟨h1, ?_⟩
  rw [h1, List.reverse_cons, join_snoc]

/-- Witness for c2_prefix_computation at the concrete chain of a last-sibling
node below a non-last parent below the root. -/
theorem c2_prefix_computation_witness :
    Chain.live (Chain.cons true (Chain.cons false (Chain.root true))) = true ∧
    fill_symbols (Chain.cons true (Chain.cons false (Chain.root true))) false =
      branchGlyph (Chain.isLast (Chain.cons true (Chain.cons false (Chain.root true)))) ::
        (ancestorFlags (Chain.cons true (Chain.cons false (Chain.root true)))).map contGlyph :=
  ⟨rfl, (c2_prefix_computation (Chain.cons true (Chain.cons false (Chain.root true))) rfl).1⟩

/-- C3: rendering (with no prefix for the root) the tree with root "root",
a non-last directory child "folder" holding the single last file
"file_in_folder.txt", and the last root-level file "file_in_root.txt", yields
the four expected newline-joined rows; both the tree-module renderer and the
self-contained main.rs renderer produce them. -/
theorem c3_nested_example :
    to_row_str (TreeItem.mk "root" true true
        [TreeItem.mk "folder" true false [TreeItem.mk "file_in_folder.txt" false true []],
         TreeItem.mk "file_in_root.txt" false true []]) PLink.nil false =
      "root/\n ├── folder/\n │   └── file_in_folder.txt\n └── file_in_root.txt" ∧
    to_row_str_main (TreeItem.mk "root" true true
        [TreeItem.mk "folder" true false [TreeItem.mk "file_in_folder.txt" false true []],
         TreeItem.mk "file_in_root.txt" false true []]) PLink.nil false =
      "root/\n ├── folder/\n │   └── file_in_folder.txt\n └── file_in_root.txt" :=
  ⟨by decide, by decide⟩

/-- C8: when the upward walk is at a node whose parent weak reference no
longer upgrades, it behaves exactly as at a node with no parent reference at
all — in both roles (as the rendered node and as an ancestor reached from a
child) — and it still returns a non-empty glyph list instead of failing; the
embedding has no failure channel because the source handles the dead weak
reference by simply not recursing. -/
theorem c8_expired_parent_is_no_parent (b sfc : Bool) :
    fill_symbols (Chain.broken b) sfc = fill_symbols (Chain.root b) sfc ∧
    fill_symbols (Chain.broken b) sfc ≠ [] := by
  refine ⟨rfl, ?_⟩
  simp [fill_symbols]

/-- Counterexample to C4 as stated: the self-contained main.rs renderer (one
of the claim's cited rendering sites) appends the directory separator
unconditionally, so a directory whose text already ends with "/" renders as
"dir//" while the claimed normalized display name is "dir/". -/
theorem c4_counterexample :
    to_row_str_main (TreeItem.mk "dir/" true true []) PLink.nil false = "dir//" ∧
    specDisplayName "dir/" true = "dir/" ∧
    to_row_str_main (TreeItem.mk "dir/" true true []) PLink.nil false ≠
      specDisplayName "dir/" true :=
  ⟨by decide, by decide, by decide⟩

/-- C4 as amended: in the tree-module renderer (src/tree/mod.rs), whose rows
format every node through its `Display` impl, the displayed name equals the
node's text with every backslash rewritten to a forward slash and with a
trailing "/" appended exactly when the node is a directory whose rewritten
name does not already end with "/"; files never receive a trailing separator.
The self-contained main.rs renderer performs no such normalization. -/
theorem c4_display_normalization (t : TreeItem) :
    displayFmt t = specDisplayName t.text t.is_dir ∧
    (t.is_dir = false → displayFmt t = replaceBackslash t.text) := by
  constructor
  · cases t
    rfl
  · intro h
    cases t with
    | mk tx d il cs =>
      simp only [TreeItem.is_dir] at h
      subst h
      simp [displayFmt, TreeItem.text, TreeItem.is_dir, String.append_empty]

/-- Witness for c4_display_normalization at a concrete file node. -/
theorem c4_display_normalization_witness :
    TreeItem.is_dir (TreeItem.mk "a.txt" false true []) = false ∧
    displayFmt (TreeItem.mk "a.txt" false true []) = replaceBackslash "a.txt" ∧
    displayFmt (TreeItem.mk "a.txt" false true []) = specDisplayName "a.txt" false :=
  ⟨rfl, (c4_display_normalization (TreeItem.mk "a.txt" false true [])).2 rfl,
    (c4_display_normalization (TreeItem.mk "a.txt" false true [])).1⟩

/-- C9: building and rendering is a pure function of the directory-enumeration
result, the ignore oracle and the flags, so two runs over the same fixed
enumeration produce identical output strings. -/
theorem c9_deterministic (ign1 ign2 : String → IgnState) (git1 git2 dflt1 dflt2 : Bool)
    (path1 path2 : String) (d1 d2 : FSDir)
    (h1 : ign1 = ign2) (h2 : git1 = git2) (h3 : dflt1 = dflt2)
    (h4 : path1 = path2) (h5 : d1 = d2) :
    ftree_run ign1 git1 dflt1 path1 d1 = ftree_run ign2 git2 dflt2 path2 d2 := by
  subst h1 h2 h3 h4 h5
  rfl

/-- Witness for c9_deterministic on a concrete one-file directory. -/
theorem c9_deterministic_witness :
    ftree_run (fun _ => IgnState.absent) true true "r"
        (FSDir.ok [(some "a.txt", some false, FSDir.ok [])]) =
      ftree_run (fun _ => IgnState.absent) true true "r"
        (FSDir.ok [(some "a.txt", some false, FSDir.ok [])]) :=
  c9_deterministic _ _ _ _ _ _ _ _ _ _ rfl rfl rfl rfl rfl

theorem noGit_entries (ign : String → IgnState) (dflt : Bool) (path : String)
    (m : Option (String → Option Bool)) (entries : List (Option String × Option Bool × FSDir))
    (l : List TreeItem) (h : traverseEntries ign true dflt path m entries = .ok l) :
    noGitList l = true := by
  match entries with
  | [] =>
    simp only [traverseEntries] at h
    cases h
    rfl
  | (nameO, metaO, sub) :: rest =>
    match metaO, nameO with
    | none, _ =>
      simp only [traverseEntries] at h
      exact absurd h (by simp)
    | some is_dir, none =>
      simp only [traverseEntries] at h
      exact absurd h (by simp)
    | some is_dir, some nm =>
      simp only [traverseEntries] at h
      split at h
      · exact noGit_entries ign dflt path m rest l h
      · rename_i hskip
        split at h
        · exact absurd h (by simp)
        · exact noGit_entries ign dflt path m rest l h
        · split at h
          · exact absurd h (by simp)
          · rename_i kids hkids
            split at h
            · exact absurd h (by simp)
            · rename_i others hothers
              cases h
              simp only [noGitList, Bool.and_eq_true]
              refine ⟨?_, noGit_entries ign dflt path m rest others hothers⟩
              have hne : (nm == ".git") = false := by
                simpa using hskip
              simp only [noGitItem, Bool.and_eq_true, bne, hne]
              refine ⟨rfl, ?_⟩
              cases is_dir with
              | false =>
                simp only [Bool.false_eq_true, if_false] at hkids
                cases hkids
                rfl
              | true =>
                simp only [if_true] at hkids
                cases sub with
                | err e =>
                  rw [traverse_fs] at hkids
                  split at hkids
                  · exact absurd hkids (by simp)
                  · exact absurd hkids (by simp)
                  · exact absurd hkids (by simp)
                | ok subEntries =>
                  rw [traverse_fs] at hkids
                  split at hkids
                  · exact absurd hkids (by simp)
                  · exact noGit_entries ign dflt (joinPath path nm) none subEntries kids hkids
                  · rename_i f hf
                    exact noGit_entries ign dflt (joinPath path nm) (some f) subEntries kids hkids
termination_by sizeOf entries

/-- C1 fails on the code: with ignore-awareness enabled the builder
(`traverse_fs` in src/fs_utils.rs) attaches children without computing any
last-sibling flag — its call `TreeItem::new(item, file_name_str.to_string(), is_dir)`
omits the `is_last` argument that `TreeItem::new` in src/tree/mod.rs requires,
so the file does not even type-check and no kept-position computation exists.
Under either constant completion of the missing argument, a directory with two
kept entries yields children violating the claimed exactly-one-last invariant:
with `true` both children carry the flag, with `false` none does. -/
theorem c1_last_sibling_flag_missing :
    traverse_fs (fun _ => IgnState.absent) true true "r"
        (FSDir.ok [(some "a.txt", some false, FSDir.ok []),
          (some "b.txt", some false, FSDir.ok [])]) =
      .ok [TreeItem.mk "a.txt" false true [], TreeItem.mk "b.txt" false true []] ∧
    traverse_fs (fun _ => IgnState.absent) true false "r"
        (FSDir.ok [(some "a.txt", some false, FSDir.ok []),
          (some "b.txt", some false, FSDir.ok [])]) =
      .ok [TreeItem.mk "a.txt" false false [], TreeItem.mk "b.txt" false false []] ∧
    lastFlagsOk [TreeItem.mk "a.txt" false true [], TreeItem.mk "b.txt" false true []] = false ∧
    lastFlagsOk [TreeItem.mk "a.txt" false false [], TreeItem.mk "b.txt" false false []] = false :=
  ⟨rfl, rfl, rfl, rfl⟩

/-- C5: whenever the ignore-aware build succeeds, no node named ".git" exists
anywhere in the produced forest, for every ignore oracle (so regardless of any
ignore-file contents, including matchers that would reject or even fail on the
".git" path), at every depth. -/
theorem c5_git_dir_always_skipped (ign : String → IgnState) (dflt : Bool)
    (path : String) (d : FSDir) (l : List TreeItem)
    (h : traverse_fs ign true dflt path d = .ok l) :
    noGitList l = true := by
  cases d with
  | err e =>
    rw [traverse_fs] at h
    split at h
    · exact absurd h (by simp)
    · exact absurd h (by simp)
    · exact absurd h (by simp)
  | ok entries =>
    rw [traverse_fs] at h
    split at h
    · exact absurd h (by simp)
    · exact noGit_entries ign dflt path none entries l h
    · rename_i f hf
      exact noGit_entries ign dflt path (some f) entries l h

/-- Witness for c5_git_dir_always_skipped: a directory holding a ".git" entry
(whose own listing would even fail) and a kept file, under a matcher that
fails on the ".git" path, still builds successfully and the result is free of
".git" nodes. -/
theorem c5_git_dir_always_skipped_witness :
    traverse_fs (fun _ => IgnState.matcher (fun p => if p = "r/.git" then none else some false))
        true true "r"
        (FSDir.ok [(some ".git", some true, FSDir.err "boom"), (some "x", some false, FSDir.ok [])]) =
      .ok [TreeItem.mk "x" false true []] ∧
    noGitList [TreeItem.mk "x" false true []] = true :=
  ⟨rfl, c5_git_dir_always_skipped
    (fun p => if p = "r/.git" then IgnState.matcher (fun q => if q = "r/.git" then none else some false)
      else IgnState.matcher (fun q => if q = "r/.git" then none else some false))
    true "r"
    (FSDir.ok [(some ".git", some true, FSDir.err "boom"), (some "x", some false, FSDir.ok [])])
    [TreeItem.mk "x" false true []] rfl⟩

theorem underPath_self (base : String) : underPath base base := Or.inl rfl

theorem underPath_child (base nm p : String) (h : underPath (joinPath base nm) p) :
    underPath base p := by
  rcases h with h | ⟨rest, h⟩
  · exact Or.inr ⟨nm, h⟩
  · refine Or.inr ⟨nm ++ "/" ++ rest, ?_⟩
    rw [h]
    simp [joinPath, String.append_assoc]

theorem loc_entries (ign1 ign2 : String → IgnState) (git dflt : Bool) (path : String)
    (m : Option (String → Option Bool)) (entries : List (Option String × Option Bool × FSDir))
    (hagree : ∀ p, underPath path p → ign1 p = ign2 p) :
    traverseEntries ign1 git dflt path m entries = traverseEntries ign2 git dflt path m entries := by
  match entries with
  | [] => rfl
  | (nameO, metaO, sub) :: rest =>
    match metaO, nameO with
    | none, _ => simp only [traverseEntries]
    | some is_dir, none => simp only [traverseEntries]
    | some is_dir, some nm =>
      simp only [traverseEntries]
      rw [loc_entries ign1 ign2 git dflt path m rest hagree]
      have hchild : traverse_fs ign1 git dflt (joinPath path nm) sub =
          traverse_fs ign2 git dflt (joinPath path nm) sub := by
        have hagree2 : ∀ p, underPath (joinPath path nm) p → ign1 p = ign2 p :=
          fun p hp => hagree p (underPath_child path nm p hp)
        have hcp : ign1 (joinPath path nm) = ign2 (joinPath path nm) :=
          hagree2 _ (underPath_self _)
        cases sub with
        | err e =>
          simp only [traverse_fs]
          rw [hcp]
        | ok subEntries =>
          simp only [traverse_fs]
          rw [hcp]
          cases h2 : (if git = true then ign2 (joinPath path nm) else IgnState.absent) with
          | absent =>
            exact loc_entries ign1 ign2 git dflt (joinPath path nm) none subEntries hagree2
          | malformed => rfl
          | matcher f =>
            exact loc_entries ign1 ign2 git dflt (joinPath path nm) (some f) subEntries hagree2
      rw [hchild]
termination_by sizeOf entries

theorem loc_fs (ign1 ign2 : String → IgnState) (git dflt : Bool) (path : String) (d : FSDir)
    (hagree : ∀ p, underPath path p → ign1 p = ign2 p) :
    traverse_fs ign1 git dflt path d = traverse_fs ign2 git dflt path d := by
  have hp : ign1 path = ign2 path := hagree path (underPath_self path)
  cases d with
  | err e =>
    simp only [traverse_fs]
    rw [hp]
  | ok entries =>
    simp only [traverse_fs]
    rw [hp]
    cases h2 : (if git = true then ign2 path else IgnState.absent) with
    | absent => exact loc_entries ign1 ign2 git dflt path none entries hagree
    | malformed => rfl
    | matcher f => exact loc_entries ign1 ign2 git dflt path (some f) entries hagree

theorem excluded_entry_removed (ign : String → IgnState) (dflt : Bool) (path : String)
    (f : String → Option Bool) (pre post : List (Option String × Option Bool × FSDir))
    (nm : String) (b : Bool) (sub : FSDir)
    (hex : f (joinPath path nm) = some true) :
    traverseEntries ign true dflt path (some f) (pre ++ (some nm, some b, sub) :: post) =
      traverseEntries ign true dflt path (some f) (pre ++ post) := by
  induction pre with
  | nil =>
    simp only [List.nil_append, traverseEntries]
    by_cases hg : (true && (nm == ".git")) = true
    · rw [if_pos hg]
    · rw [if_neg hg, hex]
  | cons e pre ih =>
    obtain ⟨nO, mO, sb⟩ := e
    simp only [List.cons_append, traverseEntries, List.append_eq]
    rw [ih]

/-- C6: the ignore decisions taken while building a directory depend only on
the oracle's answers at that directory and below — two oracles that agree on
the directory and all its descendants produce identical builds, so no matcher
or rule from any ancestor directory is propagated into recursive calls — and
an entry the local matcher marks as excluded is skipped entirely: the build of
a listing containing it equals the build of the same listing with the entry
removed (so it is neither attached nor recursed into). -/
theorem c6_ignore_rules_local :
    (∀ (ign1 ign2 : String → IgnState) (git dflt : Bool) (path : String) (d : FSDir),
      (∀ p, underPath path p → ign1 p = ign2 p) →
      traverse_fs ign1 git dflt path d = traverse_fs ign2 git dflt path d) ∧
    (∀ (ign : String → IgnState) (dflt : Bool) (path : String) (f : String → Option Bool)
      (pre post : List (Option String × Option Bool × FSDir)) (nm : String) (b : Bool)
      (sub : FSDir), f (joinPath path nm) = some true →
      traverseEntries ign true dflt path (some f) (pre ++ (some nm, some b, sub) :: post) =
        traverseEntries ign true dflt path (some f) (pre ++ post)) :=
  ⟨loc_fs, excluded_entry_removed⟩

/-- Witness for c6_ignore_rules_local: a matcher excluding "r/skip.txt" makes
the build of a three-entry listing equal the build of the listing without that
entry, and two identical oracles trivially agree below "r". -/
theorem c6_ignore_rules_local_witness :
    (fun p => some (p == "r/skip.txt")) (joinPath "r" "skip.txt") = some true ∧
    traverseEntries (fun _ => IgnState.absent) true true "r"
        (some (fun p => some (p == "r/skip.txt")))
        ([(some "a", some false, FSDir.ok [])] ++
          (some "skip.txt", some false, FSDir.ok []) :: [(some "b", some false, FSDir.ok [])]) =
      traverseEntries (fun _ => IgnState.absent) true true "r"
        (some (fun p => some (p == "r/skip.txt")))
        ([(some "a", some false, FSDir.ok [])] ++ [(some "b", some false, FSDir.ok [])]) ∧
    traverse_fs (fun _ => IgnState.absent) true true "r" (FSDir.ok []) =
      traverse_fs (fun _ => IgnState.absent) true true "r" (FSDir.ok []) :=
  ⟨rfl,
    c6_ignore_rules_local.2 (fun _ => IgnState.absent) true "r"
      (fun p => some (p == "r/skip.txt"))
      [(some "a", some false, FSDir.ok [])] [(some "b", some false, FSDir.ok [])]
      "skip.txt" false (FSDir.ok []) rfl,
    c6_ignore_rules_local.1 (fun _ => IgnState.absent) (fun _ => IgnState.absent) true true "r"
      (FSDir.ok []) (fun _ _ => rfl)⟩

theorem entries_error_propagates (ign : String → IgnState) (git dflt : Bool) (path : String)
    (m : Option (String → Option Bool)) (e : Option String × Option Bool × FSDir)
    (rest : List (Option String × Option Bool × FSDir))
    (hrest : ∃ msg, traverseEntries ign git dflt path m rest = .error msg) :
    ∃ msg, traverseEntries ign git dflt path m (e :: rest) = .error msg := by
  obtain ⟨msg, hmsg⟩ := hrest
  obtain ⟨nO, mO, sb⟩ := e
  match mO with
  | none => exact ⟨"Unable to read metadata", rfl⟩
  | some is_dir =>
    match nO with
    | none => exact ⟨"Unable to read the file name", rfl⟩
    | some nm =>
      simp only [traverseEntries]
      by_cases hg : (git && (nm == ".git")) = true
      · rw [if_pos hg]
        exact ⟨msg, hmsg⟩
      · rw [if_neg hg]
        cases hm2 : (match m with | some f => f (joinPath path nm) | none => some false) with
        | none => exact ⟨_, rfl⟩
        | some b =>
          cases b with
          | true => exact ⟨msg, hmsg⟩
          | false =>
            cases hs : (if is_dir = true then traverse_fs ign git dflt (joinPath path nm) sb
                else Except.ok []) with
            | error e2 => exact ⟨e2, rfl⟩
            | ok kids =>
              rw [hmsg]
              exact ⟨msg, rfl⟩

theorem meta_error_fatal (ign : String → IgnState) (git dflt : Bool) (path : String)
    (m : Option (String → Option Bool)) (entries : List (Option String × Option Bool × FSDir))
    (hbad : ∃ x ∈ entries, x.2.1 = none) :
    ∃ msg, traverseEntries ign git dflt path m entries = .error msg := by
  induction entries with
  | nil =>
    obtain ⟨x, hx, _⟩ := hbad
    cases hx
  | cons e rest ih =>
    obtain ⟨x, hx, hxm⟩ := hbad
    rcases List.mem_cons.mp hx with heq | hxr
    · obtain ⟨nO, mO, sb⟩ := e
      subst heq
      simp only at hxm
      subst hxm
      exact ⟨"Unable to read metadata", rfl⟩
    · exact entries_error_propagates ign git dflt path m e rest (ih ⟨x, hxr, hxm⟩)

theorem subdir_error_fatal (ign : String → IgnState) (git dflt : Bool) (path : String)
    (m : Option (String → Option Bool)) (pre post : List (Option String × Option Bool × FSDir))
    (nm : String) (sub : FSDir)
    (hno : (git && (nm == ".git")) = false)
    (hkeep : (match m with | some f => f (joinPath path nm) | none => some false) = some false)
    (hsub : ∃ msg, traverse_fs ign git dflt (joinPath path nm) sub = .error msg) :
    ∃ msg, traverseEntries ign git dflt path m (pre ++ (some nm, some true, sub) :: post) =
      .error msg := by
  induction pre with
  | nil =>
    obtain ⟨msg, hmsg⟩ := hsub
    simp only [List.nil_append, traverseEntries]
    rw [if_neg (by simp [hno]), hkeep]
    simp only [if_true]
    rw [hmsg]
    exact ⟨msg, rfl⟩
  | cons e pre ih =>
    exact entries_error_propagates ign git dflt path m e (pre ++ (some nm, some true, sub) :: post) ih

/-- C7: build failures are fatal and leave nothing rendered.  (1) A listing
failure at the target path aborts the build with an error.  (2) A metadata
failure on any entry of the target listing makes the whole build return an
error (so no unreadable entry is silently skipped).  (3) A failing build of a
kept subdirectory (one that is neither the ".git" skip nor excluded by the
matcher) aborts the enclosing loop as well, terminating the entire build and
not merely that branch.  (4) Whenever the build errors, the whole run renders
nothing: no partially-built tree is ever printed. -/
theorem c7_io_errors_fatal :
    (∀ (ign : String → IgnState) (git dflt : Bool) (path e : String),
      ∃ msg, traverse_fs ign git dflt path (FSDir.err e) = .error msg) ∧
    (∀ (ign : String → IgnState) (git dflt : Bool) (path : String)
      (entries : List (Option String × Option Bool × FSDir)),
      (∃ x ∈ entries, x.2.1 = none) →
      ∃ msg, traverse_fs ign git dflt path (FSDir.ok entries) = .error msg) ∧
    (∀ (ign : String → IgnState) (git dflt : Bool) (path : String)
      (m : Option (String → Option Bool))
      (pre post : List (Option String × Option Bool × FSDir)) (nm : String) (sub : FSDir),
      (git && (nm == ".git")) = false →
      (match m with | some f => f (joinPath path nm) | none => some false) = some false →
      (∃ msg, traverse_fs ign git dflt (joinPath path nm) sub = .error msg) →
      ∃ msg, traverseEntries ign git dflt path m (pre ++ (some nm, some true, sub) :: post) =
        .error msg) ∧
    (∀ (ign : String → IgnState) (git dflt : Bool) (path : String) (d : FSDir),
      (∃ msg, traverse_fs ign git dflt path d = .error msg) →
      ftree_run ign git dflt path d = none) := by
  refine ⟨?_, ?_, ?_, ?_⟩
  · intro ign git dflt path e
    cases hig : (if git = true then ign path else IgnState.absent) with
    | malformed =>
      refine ⟨"invalid gitignore file " ++ joinPath path ".gitignore", ?_⟩
      simp only [traverse_fs]
      rw [hig]
    | absent =>
      refine ⟨"Error reading files in " ++ path ++ ": " ++ e, ?_⟩
      simp only [traverse_fs]
      rw [hig]
    | matcher f =>
      refine ⟨"Error reading files in " ++ path ++ ": " ++ e, ?_⟩
      simp only [traverse_fs]
      rw [hig]
  · intro ign git dflt path entries hbad
    cases hig : (if git = true then ign path else IgnState.absent) with
    | malformed =>
      refine ⟨"invalid gitignore file " ++ joinPath path ".gitignore", ?_⟩
      simp only [traverse_fs]
      rw [hig]
    | absent =>
      obtain ⟨msg, h⟩ := meta_error_fatal ign git dflt path none entries hbad
      refine ⟨msg, ?_⟩
      simp only [traverse_fs]
      rw [hig]
      exact h
    | matcher f =>
      obtain ⟨msg, h⟩ := meta_error_fatal ign git dflt path (some f) entries hbad
      refine ⟨msg, ?_⟩
      simp only [traverse_fs]
      rw [hig]
      exact h
  · exact fun ign git dflt path m pre post nm sub hno hkeep hsub =>
      subdir_error_fatal ign git dflt path m pre post nm sub hno hkeep hsub
  · intro ign git dflt path d hm
    obtain ⟨msg, h⟩ := hm
    simp only [ftree_run]
    rw [h]

/-- Witness for c7_io_errors_fatal on concrete failing filesystems: an
unlistable target, a target with a metadata-failing entry, a kept
subdirectory whose listing fails, and the corresponding run that renders
nothing. -/
theorem c7_io_errors_fatal_witness :
    (∃ msg, traverse_fs (fun _ => IgnState.absent) true true "r" (FSDir.err "boom") =
      .error msg) ∧
    (∃ msg, traverse_fs (fun _ => IgnState.absent) true true "r"
      (FSDir.ok [(some "a", none, FSDir.ok [])]) = .error msg) ∧
    (∃ msg, traverseEntries (fun _ => IgnState.absent) true true "r" none
      ([] ++ (some "d", some true, FSDir.err "x") :: []) = .error msg) ∧
    ftree_run (fun _ => IgnState.absent) true true "r" (FSDir.err "boom") = none :=
  ⟨c7_io_errors_fatal.1 (fun _ => IgnState.absent) true true "r" "boom",
   c7_io_errors_fatal.2.1 (fun _ => IgnState.absent) true true "r" _
     ⟨(some "a", none, FSDir.ok []), by simp, rfl⟩,
   c7_io_errors_fatal.2.2.1 (fun _ => IgnState.absent) true true "r" none [] [] "d"
     (FSDir.err "x") rfl rfl
     (c7_io_errors_fatal.1 (fun _ => IgnState.absent) true true (joinPath "r" "d") "x"),
   c7_io_errors_fatal.2.2.2 (fun _ => IgnState.absent) true true "r" (FSDir.err "boom")
     (c7_io_errors_fatal.1 (fun _ => IgnState.absent) true true "r" "boom")⟩

theorem rec_eq_fill (c : Chain) : ∀ sfc : Bool, to_row_str_rec c sfc = fill_symbols c sfc := by
  induction c with
  | root b => intro sfc; rfl
  | broken b => intro sfc; rfl
  | cons b p ih =>
    intro sfc
    rw [to_row_str_rec, fill_symbols]
    simp only [ih]

theorem map_noBackslash (data : List Char)
    (h : data.all (fun c => c.toNat != 92) = true) :
    data.map (fun c => if c.toNat == 92 then Char.ofNat 47 else c) = data := by
  induction data with
  | nil => rfl
  | cons c cs ih =>
    simp only [List.all_cons, Bool.and_eq_true] at h
    have hc : (c.toNat == 92) = false := by
      simpa using h.1
    simp only [List.map]
    rw [hc, ih h.2]
    simp

theorem replace_id (s : String) (h : s.data.all (fun c => c.toNat != 92) = true) :
    replaceBackslash s = s := by
  cases s with
  | mk data =>
    simp only [replaceBackslash]
    congr 1
    exact map_noBackslash data h

theorem display_clean (tx : String) (d il : Bool) (cs : List TreeItem)
    (hb : tx.data.all (fun c => c.toNat != 92) = true)
    (he : endsWithSlash tx = false) :
    displayFmt (.mk tx d il cs) = tx ++ (if d then "/" else "") := by
  simp only [displayFmt, TreeItem.text, TreeItem.is_dir, replace_id tx hb, he]
  simp

mutual

theorem main_eq_tree (t : TreeItem) (link : PLink) (ps : Bool) (h : cleanItem t = true) :
    to_row_str_main t link ps = to_row_str t link ps := by
  match t with
  | .mk tx d il cs =>
    simp only [cleanItem, Bool.and_eq_true] at h
    obtain ⟨⟨hb, he⟩, hcs⟩ := h
    simp only [to_row_str_main, to_row_str]
    rw [main_eq_tree_children cs (PLink.live (Chain.ofLink il link)) hcs]
    rw [display_clean tx d il cs hb (by simpa using he)]
    simp only [rec_eq_fill]
    simp [String.append_assoc]
termination_by sizeOf t

theorem main_eq_tree_children (cs : List TreeItem) (link : PLink) (h : cleanList cs = true) :
    to_row_str_main_children cs link = to_row_str_children cs link := by
  match cs with
  | [] => rfl
  | c :: rest =>
    simp only [cleanList, Bool.and_eq_true] at h
    rw [to_row_str_main_children, to_row_str_children,
      main_eq_tree c link true h.1, main_eq_tree_children rest link h.2]
termination_by sizeOf cs

end

/-- C10: on every tree in which no node text contains a backslash and no node
text ends with "/", the self-contained main.rs renderer and the tree-module
renderer (which formats names through its normalizing Display impl) return
the same string for the same tree, parent link and prefix flag. -/
theorem c10_renderers_agree (t : TreeItem) (link : PLink) (ps : Bool)
    (h : cleanItem t = true) :
    to_row_str_main t link ps = to_row_str t link ps :=
  main_eq_tree t link ps h

/-- Witness for c10_renderers_agree on a concrete two-level tree. -/
theorem c10_renderers_agree_witness :
    cleanItem (TreeItem.mk "root" true true
      [TreeItem.mk "a.txt" false false [],
        TreeItem.mk "sub" true true [TreeItem.mk "b.txt" false true []]]) = true ∧
    to_row_str_main (TreeItem.mk "root" true true
      [TreeItem.mk "a.txt" false false [],
        TreeItem.mk "sub" true true [TreeItem.mk "b.txt" false true []]]) PLink.nil false =
      to_row_str (TreeItem.mk "root" true true
        [TreeItem.mk "a.txt" false false [],
          TreeItem.mk "sub" true true [TreeItem.mk "b.txt" false true []]]) PLink.nil false :=
  ⟨rfl, c10_renderers_agree (TreeItem.mk "root" true true
    [TreeItem.mk "a.txt" false false [],
      TreeItem.mk "sub" true true [TreeItem.mk "b.txt" false true []]]) PLink.nil false rfl⟩
